import Mathlib

/-!
Verification development for an interactive chessboard application
(`src/a.py`).  The application keeps a global `chess.Board`, a selection
state, a move history, and a single-slot evaluation cache feeding a
win-probability bar from an external analysis engine.

The embedding below translates the repository's own functions
(`compute_winrate`, `try_make_move`, the `K_u` undo handler and the
`MOUSEBUTTONDOWN` handler of the main loop) directly from the source.
The rules engine itself (board representation, legal-move generation,
`push`/`pop`, FEN) lives in the external `python-chess` library, whose
source is not part of the repository; those parts are modelled from the
spec (sections 3 and 4.1), faithful to the library's documented
behaviour: pseudo-legal generation per piece filtered by a
check-detection pass, `push` recording a snapshot of the prior position
and `pop` restoring it, and the Position Identifier being a canonical
serialization of board + turn + castling rights + en-passant square +
move counters.  Real numbers (Python floats) are modelled as `Rat`.
-/

namespace Chess

/-- Side colour. -/
inductive Color
  | white
  | black
deriving DecidableEq

/-- The opposite colour (turn alternation). -/
def Color.other : Color → Color
  | .white => .black
  | .black => .white

/-- Piece kind, mirroring `chess.PAWN .. chess.KING`. -/
inductive PieceKind
  | pawn
  | knight
  | bishop
  | rook
  | queen
  | king
deriving DecidableEq

/-- A piece: colour plus kind, mirroring `chess.Piece`. -/
structure Piece where
  color : Color
  piece_type : PieceKind
deriving DecidableEq

/-- A fully-specified move: origin, destination, optional promotion kind,
mirroring `chess.Move(from_square, to_square, promotion=...)`.  Squares are
numbered 0..63 with `square = rank * 8 + file` as in `chess.square`. -/
structure Move where
  from_square : Nat
  to_square : Nat
  promotion : Option PieceKind
deriving DecidableEq

/-- Castling rights: one flag per side and wing. -/
structure CastlingRights where
  wk : Bool
  wq : Bool
  bk : Bool
  bq : Bool
deriving DecidableEq

/-- Modelled from the spec: the Board data model (8x8 grid of optional
pieces keyed by square, side to move, castling/en-passant rights and the
move counters that complete the FEN-equivalent state). -/
structure Position where
  squares : List (Option Piece)
  turn : Color
  castling : CastlingRights
  ep_square : Option Nat
  halfmove_clock : Nat
  fullmove_number : Nat
deriving DecidableEq

/-- File (column) of a square, `chess.square_file`. -/
def fileOf (sq : Nat) : Nat := sq % 8

/-- Rank (row) of a square, `chess.square_rank`. -/
def rankOf (sq : Nat) : Nat := sq / 8

/-- Offset a square by a (file, rank) delta, `none` when off the board. -/
def shift (sq : Nat) (df dr : Int) : Option Nat :=
  let f : Int := (fileOf sq : Int) + df
  let r : Int := (rankOf sq : Int) + dr
  if 0 ≤ f ∧ f < 8 ∧ 0 ≤ r ∧ r < 8 then some (r.toNat * 8 + f.toNat) else none

/-- Contents of a square, mirroring `board.piece_at(sq)`. -/
def piece_at (pos : Position) (sq : Nat) : Option Piece :=
  pos.squares.getD sq none

/-- Whether a square holds a piece of the given colour. -/
def isOwn (pos : Position) (c : Color) (sq : Nat) : Bool :=
  match piece_at pos sq with
  | some p => decide (p.color = c)
  | none => false

/-- Whether a square holds a piece of the opposing colour. -/
def isEnemy (pos : Position) (c : Color) (sq : Nat) : Bool :=
  match piece_at pos sq with
  | some p => decide (p.color ≠ c)
  | none => false

/-- Whether a square is empty. -/
def isEmptySq (pos : Position) (sq : Nat) : Bool :=
  (piece_at pos sq).isNone

/-- Square of the pawn removed by an en-passant capture landing on `t`. -/
def epCaptureSquare (c : Color) (t : Nat) : Nat :=
  match c with
  | .white => t - 8
  | .black => t + 8

/-- Modelled from the spec: castling rights cleared when a move touches
the relevant king or rook home squares. -/
def clearRightsAt (cr : CastlingRights) (sq : Nat) : CastlingRights :=
  { wk := cr.wk && !(sq == 4) && !(sq == 7),
    wq := cr.wq && !(sq == 4) && !(sq == 0),
    bk := cr.bk && !(sq == 60) && !(sq == 63),
    bq := cr.bq && !(sq == 60) && !(sq == 56) }

/-- The piece that ends up on the destination square: the promotion
choice (keeping the mover's colour) when present, else the mover. -/
def pieceAfter (p : Piece) (m : Move) : Piece :=
  match m.promotion with
  | some k => ⟨p.color, k⟩
  | none => p

/-- Whether the move is an en-passant capture (pawn landing on the
recorded en-passant square). -/
def isEpCapture (pos : Position) (p : Piece) (m : Move) : Bool :=
  decide (p.piece_type = PieceKind.pawn ∧ pos.ep_square = some m.to_square)

/-- The board squares after clearing the origin, removing an en-passant
captured pawn, and relocating the rook on a castling king move — i.e.
everything except placing the moved (possibly promoted) piece.  This part
is independent of the promotion choice. -/
def squaresAfterClear (pos : Position) (p : Piece) (m : Move) : List (Option Piece) :=
  let s0 := pos.squares.set m.from_square none
  let s1 := if isEpCapture pos p m then s0.set (epCaptureSquare p.color m.to_square) none else s0
  if p.piece_type = PieceKind.king then
    if m.from_square = 4 ∧ m.to_square = 6 then (s1.set 7 none).set 5 (some ⟨Color.white, PieceKind.rook⟩)
    else if m.from_square = 4 ∧ m.to_square = 2 then (s1.set 0 none).set 3 (some ⟨Color.white, PieceKind.rook⟩)
    else if m.from_square = 60 ∧ m.to_square = 62 then (s1.set 63 none).set 61 (some ⟨Color.black, PieceKind.rook⟩)
    else if m.from_square = 60 ∧ m.to_square = 58 then (s1.set 56 none).set 59 (some ⟨Color.black, PieceKind.rook⟩)
    else s1
  else s1

/-- En-passant square recorded after the move: set behind a double pawn
push, cleared otherwise. -/
def newEpSquare (p : Piece) (m : Move) : Option Nat :=
  if p.piece_type = PieceKind.pawn then
    if rankOf m.from_square = 1 ∧ rankOf m.to_square = 3 ∧ p.color = Color.white then some (m.from_square + 8)
    else if rankOf m.from_square = 6 ∧ rankOf m.to_square = 4 ∧ p.color = Color.black then some (m.from_square - 8)
    else none
  else none

/-- Castling rights after a move touching its origin and destination. -/
def rightsAfter (pos : Position) (m : Move) : CastlingRights :=
  clearRightsAt (clearRightsAt pos.castling m.from_square) m.to_square

/-- Halfmove clock: reset on a pawn move or a capture, else incremented. -/
def halfmoveAfter (pos : Position) (p : Piece) (m : Move) : Nat :=
  if p.piece_type = PieceKind.pawn ∨ (piece_at pos m.to_square).isSome then 0
  else pos.halfmove_clock + 1

/-- Fullmove number: incremented after Black's move. -/
def fullmoveAfter (pos : Position) : Nat :=
  if pos.turn = Color.black then pos.fullmove_number + 1 else pos.fullmove_number

/-- Modelled from the spec: `apply` — mutate the Board by a
fully-specified move (placement, captures including en passant, castling
rook relocation, promotion piece placement, rights/en-passant/clock
bookkeeping) and alternate the turn. -/
def applyMove (pos : Position) (m : Move) : Position :=
  match piece_at pos m.from_square with
  | none =>
      { pos with
        turn := pos.turn.other,
        ep_square := none,
        halfmove_clock := pos.halfmove_clock + 1,
        fullmove_number := fullmoveAfter pos }
  | some p =>
      { squares := (squaresAfterClear pos p m).set m.to_square (some (pieceAfter p m)),
        turn := pos.turn.other,
        castling := rightsAfter pos m,
        ep_square := newEpSquare p m,
        halfmove_clock := halfmoveAfter pos p m,
        fullmove_number := fullmoveAfter pos }

/-- Knight move offsets. -/
def knightOffsets : List (Int × Int) :=
  [(1, 2), (2, 1), (2, -1), (1, -2), (-1, -2), (-2, -1), (-2, 1), (-1, 2)]

/-- King move offsets. -/
def kingOffsets : List (Int × Int) :=
  [(1, 0), (1, 1), (0, 1), (-1, 1), (-1, 0), (-1, -1), (0, -1), (1, -1)]

/-- Orthogonal sliding directions (rook, queen). -/
def rookDirs : List (Int × Int) := [(1, 0), (-1, 0), (0, 1), (0, -1)]

/-- Diagonal sliding directions (bishop, queen). -/
def bishopDirs : List (Int × Int) := [(1, 1), (1, -1), (-1, 1), (-1, -1)]

/-- First occupied square along a direction from `sq` (`occ` is the
occupancy predicate), walking at most `fuel` steps. -/
def firstBlocker (occ : Nat → Bool) : Nat → Nat → Int → Int → Option Nat
  | 0, _, _, _ => none
  | fuel + 1, sq, df, dr =>
      match shift sq df dr with
      | none => none
      | some t => if occ t then some t else firstBlocker occ fuel t df dr

/-- Whether the optional square holds an attacker of the given kind,
where `enem sq` is the kind of the attacking side's piece on `sq`. -/
def kindAtOpt (enem : Nat → Option PieceKind) (k : PieceKind) (s : Option Nat) : Bool :=
  match s with
  | some sq => decide (enem sq = some k)
  | none => false

/-- Whether the first blocker along a direction from `t` is an attacking
piece of kind `k1` or `k2`. -/
def slideAttack (occ : Nat → Bool) (enem : Nat → Option PieceKind) (t : Nat)
    (d : Int × Int) (k1 k2 : PieceKind) : Bool :=
  match firstBlocker occ 7 t d.1 d.2 with
  | none => false
  | some s => decide (enem s = some k1 ∨ enem s = some k2)

/-- Modelled from the spec: check detection — whether square `t` is
attacked by colour `c`, phrased over abstract board accessors `occ`
(occupancy, used for sliding blockers) and `enem` (kind of the `c`-coloured
piece on a square, if any). -/
def isAttackedA (occ : Nat → Bool) (enem : Nat → Option PieceKind) (c : Color) (t : Nat) : Bool :=
  let pdr : Int := match c with | .white => -1 | .black => 1
  kindAtOpt enem .pawn (shift t (-1) pdr) || kindAtOpt enem .pawn (shift t 1 pdr)
    || knightOffsets.any (fun d => kindAtOpt enem .knight (shift t d.1 d.2))
    || kingOffsets.any (fun d => kindAtOpt enem .king (shift t d.1 d.2))
    || rookDirs.any (fun d => slideAttack occ enem t d .rook .queen)
    || bishopDirs.any (fun d => slideAttack occ enem t d .bishop .queen)

/-- Occupancy accessor of a position. -/
def occF (pos : Position) (sq : Nat) : Bool :=
  (piece_at pos sq).isSome

/-- Kind of the `c`-coloured piece on a square, if any. -/
def colorKindAt (pos : Position) (c : Color) (sq : Nat) : Option PieceKind :=
  match piece_at pos sq with
  | some p => if p.color = c then some p.piece_type else none
  | none => none

/-- Whether square `t` of `pos` is attacked by colour `c`. -/
def isAttacked (pos : Position) (c : Color) (t : Nat) : Bool :=
  isAttackedA (occF pos) (colorKindAt pos c) c t

/-- Square of the `c`-coloured king, if present. -/
def findKing (pos : Position) (c : Color) : Option Nat :=
  (List.range 64).find? (fun s => decide (piece_at pos s = some ⟨c, PieceKind.king⟩))

/-- Whether the `c`-coloured king is not attacked (vacuously true when
absent, as in the library). -/
def kingSafe (pos : Position) (c : Color) : Bool :=
  match findKing pos c with
  | none => true
  | some ks => !(isAttacked pos c.other ks)

/-- Modelled from the spec: a candidate move is legal iff, after
hypothetically applying it, the moving side's king is not attacked. -/
def kingSafeAfter (pos : Position) (m : Move) : Bool :=
  kingSafe (applyMove pos m) pos.turn

/-- Step-move targets (knight/king): offset squares not occupied by an
own piece. -/
def stepTargets (pos : Position) (c : Color) (sq : Nat) (offs : List (Int × Int)) : List Nat :=
  offs.filterMap (fun d =>
    match shift sq d.1 d.2 with
    | some t => if isOwn pos c t then none else some t
    | none => none)

/-- Sliding-ray targets in one direction: empty squares up to and
including a first enemy blocker. -/
def rayTargets (pos : Position) (c : Color) : Nat → Nat → Int → Int → List Nat
  | 0, _, _, _ => []
  | fuel + 1, sq, df, dr =>
      match shift sq df dr with
      | none => []
      | some t =>
          if isEmptySq pos t then t :: rayTargets pos c fuel t df dr
          else if isEnemy pos c t then [t] else []

/-- Sliding targets over a set of directions. -/
def slideTargets (pos : Position) (c : Color) (sq : Nat) (dirs : List (Int × Int)) : List Nat :=
  dirs.flatMap (fun d => rayTargets pos c 7 sq d.1 d.2)

/-- Pawn push targets: single advance to an empty square, plus the double
advance from the start rank through empty squares. -/
def pawnForward (pos : Position) (c : Color) (sq : Nat) : List Nat :=
  let dr : Int := if c = Color.white then 1 else -1
  let startRank : Nat := if c = Color.white then 1 else 6
  match shift sq 0 dr with
  | none => []
  | some t1 =>
      if isEmptySq pos t1 then
        t1 :: (if rankOf sq = startRank then
          match shift sq 0 (2 * dr) with
          | some t2 => if isEmptySq pos t2 then [t2] else []
          | none => []
        else [])
      else []

/-- Pawn capture targets: diagonal squares holding an enemy piece or
equal to the recorded en-passant square. -/
def pawnCaptures (pos : Position) (c : Color) (sq : Nat) : List Nat :=
  let dr : Int := if c = Color.white then 1 else -1
  [(-1 : Int), 1].filterMap (fun df =>
    match shift sq df dr with
    | some t => if isEnemy pos c t || decide (pos.ep_square = some t) then some t else none
    | none => none)

/-- All pawn destination squares from `sq`. -/
def pawnTargets (pos : Position) (c : Color) (sq : Nat) : List Nat :=
  pawnForward pos c sq ++ pawnCaptures pos c sq

/-- The four admissible promotion kinds. -/
def promoKinds : List PieceKind := [.queen, .rook, .bishop, .knight]

/-- The terminal rank for a colour's pawns (rank index 7 for White, 0 for
Black). -/
def terminalRank (c : Color) : Nat :=
  match c with
  | .white => 7
  | .black => 0

/-- Expand a pawn destination into moves: four promotion moves on a
terminal rank, else a single move without promotion. -/
def expandPawnTarget (sq t : Nat) : List Move :=
  if rankOf t = 7 ∨ rankOf t = 0 then promoKinds.map (fun k => ⟨sq, t, some k⟩)
  else [⟨sq, t, none⟩]

/-- Pseudo-legal pawn moves from `sq`. -/
def pawnMoves (pos : Position) (c : Color) (sq : Nat) : List Move :=
  (pawnTargets pos c sq).flatMap (expandPawnTarget sq)

/-- Castling moves available to the king on `sq`: rights intact, path
empty, king and transit square not attacked (destination safety is
enforced by the global legality filter). -/
def castleMoves (pos : Position) (c : Color) (sq : Nat) : List Move :=
  match c with
  | .white =>
      (if sq = 4 ∧ pos.castling.wk = true ∧ piece_at pos 7 = some ⟨Color.white, PieceKind.rook⟩
          ∧ isEmptySq pos 5 = true ∧ isEmptySq pos 6 = true
          ∧ isAttacked pos Color.black 4 = false ∧ isAttacked pos Color.black 5 = false
       then [⟨sq, 6, none⟩] else [])
      ++ (if sq = 4 ∧ pos.castling.wq = true ∧ piece_at pos 0 = some ⟨Color.white, PieceKind.rook⟩
          ∧ isEmptySq pos 1 = true ∧ isEmptySq pos 2 = true ∧ isEmptySq pos 3 = true
          ∧ isAttacked pos Color.black 4 = false ∧ isAttacked pos Color.black 3 = false
       then [⟨sq, 2, none⟩] else [])
  | .black =>
      (if sq = 60 ∧ pos.castling.bk = true ∧ piece_at pos 63 = some ⟨Color.black, PieceKind.rook⟩
          ∧ isEmptySq pos 61 = true ∧ isEmptySq pos 62 = true
          ∧ isAttacked pos Color.white 60 = false ∧ isAttacked pos Color.white 61 = false
       then [⟨sq, 62, none⟩] else [])
      ++ (if sq = 60 ∧ pos.castling.bq = true ∧ piece_at pos 56 = some ⟨Color.black, PieceKind.rook⟩
          ∧ isEmptySq pos 57 = true ∧ isEmptySq pos 58 = true ∧ isEmptySq pos 59 = true
          ∧ isAttacked pos Color.white 60 = false ∧ isAttacked pos Color.white 59 = false
       then [⟨sq, 58, none⟩] else [])

/-- Pseudo-legal moves of the piece `p` standing on `sq`. -/
def pieceMoves (pos : Position) (p : Piece) (sq : Nat) : List Move :=
  match p.piece_type with
  | .pawn => pawnMoves pos p.color sq
  | .knight => (stepTargets pos p.color sq knightOffsets).map (fun t => ⟨sq, t, none⟩)
  | .bishop => (slideTargets pos p.color sq bishopDirs).map (fun t => ⟨sq, t, none⟩)
  | .rook => (slideTargets pos p.color sq rookDirs).map (fun t => ⟨sq, t, none⟩)
  | .queen => (slideTargets pos p.color sq (rookDirs ++ bishopDirs)).map (fun t => ⟨sq, t, none⟩)
  | .king => (stepTargets pos p.color sq kingOffsets).map (fun t => ⟨sq, t, none⟩)
      ++ castleMoves pos p.color sq

/-- Modelled from the spec: pseudo-legal move generation — per-piece
movement patterns for the side to move, respecting occupancy and capture
rules. -/
def pseudoLegalMoves (pos : Position) : List Move :=
  (List.range 64).flatMap (fun sq =>
    match piece_at pos sq with
    | some p => if p.color = pos.turn then pieceMoves pos p sq else []
    | none => [])

/-- Modelled from the spec: `legal_moves()` — pseudo-legal generation
filtered by the check-detection pass. -/
def legalMoves (pos : Position) : List Move :=
  (pseudoLegalMoves pos).filter (fun m => kingSafeAfter pos m)

/-- Modelled from the spec: the library board (`chess.Board`) — current
position plus the internal stack of prior-position snapshots that
`push`/`pop` maintain. -/
structure Board where
  pos : Position
  stack : List (Position × Move)
deriving DecidableEq

/-- Modelled from the spec: `board.push(move)` — apply the move and record
a snapshot of the prior position for undo. -/
def Board.push (b : Board) (m : Move) : Board :=
  ⟨applyMove b.pos m, (b.pos, m) :: b.stack⟩

/-- Modelled from the spec: `board.pop()` — revert to the prior position
snapshot (restoring captured pieces and special-move side effects); the
source only calls it with a non-empty history, so the empty case is left
as the identity. -/
def Board.popB (b : Board) : Board :=
  match b.stack with
  | [] => b
  | (p, _) :: rest => ⟨p, rest⟩

/-- Modelled from the spec: the Position Identifier (`board.fen()`) — a
canonical serialization of board, side to move, castling rights,
en-passant state and move counters. -/
structure Fen where
  placement : List (Option Piece)
  active : Color
  rights : CastlingRights
  ep : Option Nat
  halfmove : Nat
  fullmove : Nat
deriving DecidableEq

/-- Serialize a position into its Position Identifier. -/
def fen (pos : Position) : Fen :=
  ⟨pos.squares, pos.turn, pos.castling, pos.ep_square, pos.halfmove_clock, pos.fullmove_number⟩

/-- The application's global state: the board, the global `move_stack`
list, the selection state (`selected_square`, `legal_moves`) and the
single-slot evaluation cache (`_last_eval_fen`, `_last_winrate`). -/
structure GameState where
  board : Board
  move_stack : List Move
  selected_square : Option Nat
  legal_moves : List Move
  last_eval_fen : Option Fen
  last_winrate : Rat
deriving DecidableEq

/-- A promotion choice as returned by `prompt_promotion` (always one of
the four characters q/r/b/n). -/
inductive PromChoice
  | q
  | r
  | b
  | n
deriving DecidableEq

/-- The `prom_map` dictionary of `try_make_move`. -/
def prom_map : PromChoice → PieceKind
  | .q => .queen
  | .r => .rook
  | .b => .bishop
  | .n => .knight

/-- The move `try_make_move` constructs from a click pair: `none` when the
origin square is empty (early `return False`); a promotion move carrying
the prompted choice when a pawn moves to rank index 0 or 7; a plain move
otherwise (`src/a.py` lines 235-245). -/
def attempted_move (pos : Position) (choice : PromChoice) (from_sq to_sq : Nat) : Option Move :=
  match piece_at pos from_sq with
  | none => none
  | some p =>
      if p.piece_type = PieceKind.pawn ∧ (rankOf to_sq = 0 ∨ rankOf to_sq = 7) then
        some ⟨from_sq, to_sq, some (prom_map choice)⟩
      else some ⟨from_sq, to_sq, none⟩

/-- `try_make_move(from_sq, to_sq)` (`src/a.py` lines 233-251): build the
move (prompting a promotion choice when a pawn heads to a terminal rank
index), then push it and append to `move_stack` iff it is in
`board.legal_moves`; returns whether the move was made. -/
def try_make_move (s : GameState) (choice : PromChoice) (from_sq to_sq : Nat) : Bool × GameState :=
  match attempted_move s.board.pos choice from_sq to_sq with
  | none => (false, s)
  | some m =>
      if m ∈ legalMoves s.board.pos then
        (true, { s with board := s.board.push m, move_stack := s.move_stack ++ [m] })
      else (false, s)

/-- The `K_u` key handler of the main loop (`src/a.py` lines 267-272):
when `move_stack` is truthy, pop the board and the move stack and clear
the evaluation cache; otherwise nothing happens. -/
def undo_handler (s : GameState) : GameState :=
  if s.move_stack = [] then s
  else
    { s with
      board := s.board.popB,
      move_stack := s.move_stack.dropLast,
      last_eval_fen := none }

/-- The `MOUSEBUTTONDOWN` handler for a click on board square `sq`
(`src/a.py` lines 281-292): with no selection, select the square iff it
holds a side-to-move piece, storing the full legal-move list; with a
selection, attempt the move, always reset the selection, and clear the
evaluation cache iff the move was made. -/
def mouse_handler (s : GameState) (choice : PromChoice) (sq : Nat) : GameState :=
  match s.selected_square with
  | none =>
      match piece_at s.board.pos sq with
      | some p =>
          if p.color = s.board.pos.turn then
            { s with selected_square := some sq, legal_moves := legalMoves s.board.pos }
          else s
      | none => s
  | some sel =>
      let r := try_make_move s choice sel sq
      let s1 := { r.2 with selected_square := none, legal_moves := [] }
      if r.1 then { s1 with last_eval_fen := none } else s1

/-- The relative score carried by `info["score"].relative`: a forced-mate
count or a centipawn value. -/
inductive RelScore
  | mateIn (n : Int)
  | centipawns (cp : Int)
deriving DecidableEq

/-- Outcome of one `engine.analyse` call: an exception, or an info dict
whose score entry may be missing. -/
abbrev AnalyseResult := Except Unit (Option RelScore)

/-- Result of one `compute_winrate` call: the returned value, the cache
globals after the call, and how many external analyse requests were
issued. -/
structure WinrateOutcome where
  value : Rat
  cache_fen : Option Fen
  cache_winrate : Rat
  engine_calls : Nat
deriving DecidableEq

/-- Score normalization of `compute_winrate` (`src/a.py` lines 109-120):
missing score gives 0.5; a mate gives 1.0 on a positive count else 0.0; a
centipawn score cp gives (cp + 300) / 600 clamped to [0, 1]. -/
def scoreToWinrate (s : Option RelScore) : Rat :=
  match s with
  | none => 1/2
  | some (.mateIn n) => if n > 0 then 1 else 0
  | some (.centipawns cp) => max (min (((cp : Rat) + 300) / 600) 1) 0

/-- `compute_winrate()` (`src/a.py` lines 98-127) for a fixed current
board FEN `f`: without an engine, store and return 0.5; on a cache hit
return the cached value with no external call; otherwise issue one
analyse request, normalize its score (0.5 on a raised exception or a
missing score), store the result under `f`, and return it.  The function
is total: the `except` branch means no error reaches the caller. -/
def compute_winrate (enginePresent : Bool) (analyse : AnalyseResult) (f : Fen)
    (cacheFen : Option Fen) (cacheWinrate : Rat) : WinrateOutcome :=
  if enginePresent = false then ⟨1/2, some f, 1/2, 0⟩
  else if cacheFen = some f then ⟨cacheWinrate, cacheFen, cacheWinrate, 0⟩
  else
    match analyse with
    | .error _ => ⟨1/2, some f, 1/2, 1⟩
    | .ok s => ⟨scoreToWinrate s, some f, scoreToWinrate s, 1⟩

/-- Initial back rank for a colour. -/
def backRank (c : Color) : List (Option Piece) :=
  [some ⟨c, .rook⟩, some ⟨c, .knight⟩, some ⟨c, .bishop⟩, some ⟨c, .queen⟩,
   some ⟨c, .king⟩, some ⟨c, .bishop⟩, some ⟨c, .knight⟩, some ⟨c, .rook⟩]

/-- A rank of pawns for a colour. -/
def pawnRank (c : Color) : List (Option Piece) :=
  List.replicate 8 (some ⟨c, .pawn⟩)

/-- The standard chess starting position (`chess.Board()`). -/
def startPos : Position :=
  { squares := backRank .white ++ pawnRank .white ++ List.replicate 32 none
      ++ pawnRank .black ++ backRank .black,
    turn := .white,
    castling := ⟨true, true, true, true⟩,
    ep_square := none,
    halfmove_clock := 0,
    fullmove_number := 1 }

/-- The board at program start. -/
def startBoard : Board := ⟨startPos, []⟩

/-- The application state right after initialization (`src/a.py` lines
70-96): fresh board, no selection, empty history, cold cache. -/
def startState : GameState :=
  ⟨startBoard, [], none, [], none, 1/2⟩

/-- The double pawn push e2-e4. -/
def e2e4 : Move := ⟨12, 28, none⟩

/-- A promotion test position: White king e1, White pawn a7, Black king
e8, White to move, no castling rights. -/
def promoPos : Position :=
  { squares := (((List.replicate 64 (none : Option Piece)).set 4 (some ⟨.white, .king⟩)).set 48
      (some ⟨.white, .pawn⟩)).set 60 (some ⟨.black, .king⟩),
    turn := .white,
    castling := ⟨false, false, false, false⟩,
    ep_square := none,
    halfmove_clock := 0,
    fullmove_number := 1 }

/-- The White pawn promotion push a7-a8 with choice queen. -/
def a7a8Q : Move := ⟨48, 56, some .queen⟩

/-- A state in mid-interaction: e2-e4 has been played (non-empty Move
History) and square e4 is currently selected. -/
def undoCexState : GameState :=
  { board := startBoard.push e2e4,
    move_stack := [e2e4],
    selected_square := some 28,
    legal_moves := legalMoves (startBoard.push e2e4).pos,
    last_eval_fen := none,
    last_winrate := 1/2 }

end Chess

namespace Chess

theorem getD_set_ne {α : Type} (l : List α) (i j : Nat) (v d : α) (h : i ≠ j) :
    (l.set i v).getD j d = l.getD j d := by
  simp [List.getD_eq_getElem?_getD, List.getElem?_set_ne h]

theorem getD_set_lt {α : Type} (l : List α) (i : Nat) (v d : α) (h : i < l.length) :
    (l.set i v).getD i d = v := by
  simp [List.getD_eq_getElem?_getD, List.getElem?_set_self', h]

theorem getD_set_ge {α : Type} (l : List α) (i : Nat) (v d : α) (h : l.length ≤ i) :
    (l.set i v).getD i d = l.getD i d := by
  rw [List.set_eq_of_length_le h]

theorem applyMove_some (pos : Position) (m : Move) (p : Piece)
    (h : piece_at pos m.from_square = some p) :
    applyMove pos m =
      ⟨(squaresAfterClear pos p m).set m.to_square (some (pieceAfter p m)),
        pos.turn.other, rightsAfter pos m, newEpSquare p m,
        halfmoveAfter pos p m, fullmoveAfter pos⟩ := by
  unfold applyMove
  rw [h]

theorem applyMove_turn (pos : Position) (m : Move) :
    (applyMove pos m).turn = pos.turn.other := by
  unfold applyMove
  cases piece_at pos m.from_square <;> rfl

theorem Color.other_ne (c : Color) : c.other ≠ c := by
  cases c <;> simp [Color.other]

theorem mem_castleMoves (pos : Position) (c : Color) (sq : Nat) (m : Move)
    (h : m ∈ castleMoves pos c sq) : m.from_square = sq ∧ m.promotion = none := by
  cases c <;>
    · simp only [castleMoves, List.mem_append] at h
      rcases h with h | h <;> split_ifs at h <;> simp at h <;> subst h <;> exact ⟨rfl, rfl⟩

theorem mem_expandPawnTarget (sq t : Nat) (m : Move) (h : m ∈ expandPawnTarget sq t) :
    m.from_square = sq ∧ m.to_square = t ∧
      ((m.promotion = none ∧ ¬(rankOf t = 7 ∨ rankOf t = 0)) ∨
        ((∃ k ∈ promoKinds, m.promotion = some k) ∧ (rankOf t = 7 ∨ rankOf t = 0))) := by
  unfold expandPawnTarget at h
  split_ifs at h with hc
  · simp only [List.mem_map] at h
    obtain ⟨k, hk, rfl⟩ := h
    exact ⟨rfl, rfl, Or.inr ⟨⟨k, hk, rfl⟩, hc⟩⟩
  · simp at h
    subst h
    exact ⟨rfl, rfl, Or.inl ⟨rfl, hc⟩⟩

theorem mem_pawnMoves (pos : Position) (c : Color) (sq : Nat) (m : Move)
    (h : m ∈ pawnMoves pos c sq) :
    m.from_square = sq ∧ m.to_square ∈ pawnTargets pos c sq ∧
      ((m.promotion = none ∧ ¬(rankOf m.to_square = 7 ∨ rankOf m.to_square = 0)) ∨
        ((∃ k ∈ promoKinds, m.promotion = some k) ∧
          (rankOf m.to_square = 7 ∨ rankOf m.to_square = 0))) := by
  unfold pawnMoves at h
  rw [List.mem_flatMap] at h
  obtain ⟨t, ht, hm⟩ := h
  obtain ⟨h1, h2, h3⟩ := mem_expandPawnTarget sq t m hm
  subst h2
  exact ⟨h1, ht, h3⟩

theorem pawnMoves_sibling (pos : Position) (c : Color) (f t : Nat) (k1 k2 : PieceKind)
    (h : (⟨f, t, some k1⟩ : Move) ∈ pawnMoves pos c f) (hk2 : k2 ∈ promoKinds) :
    (⟨f, t, some k2⟩ : Move) ∈ pawnMoves pos c f := by
  unfold pawnMoves at h ⊢
  rw [List.mem_flatMap] at h ⊢
  obtain ⟨t0, ht0, hm⟩ := h
  refine ⟨t0, ht0, ?_⟩
  unfold expandPawnTarget at hm ⊢
  split_ifs at hm with hc
  · simp only [List.mem_map] at hm
    obtain ⟨k, _, hk⟩ := hm
    have htt : t0 = t := by cases hk; rfl
    subst htt
    rw [if_pos hc]
    simp only [List.mem_map]
    exact ⟨k2, hk2, rfl⟩
  · simp at hm

theorem mem_pieceMoves_from (pos : Position) (p : Piece) (sq : Nat) (m : Move)
    (h : m ∈ pieceMoves pos p sq) : m.from_square = sq := by
  cases hp : p.piece_type <;> rw [pieceMoves, hp] at h
  case pawn => exact (mem_pawnMoves pos p.color sq m h).1
  case king =>
    rcases List.mem_append.mp h with h | h
    · obtain ⟨t, _, rfl⟩ := List.mem_map.mp h
      rfl
    · exact (mem_castleMoves pos p.color sq m h).1
  all_goals
    obtain ⟨t, _, rfl⟩ := List.mem_map.mp h
    rfl

theorem mem_pieceMoves_nonpawn (pos : Position) (p : Piece) (sq : Nat) (m : Move)
    (hp : p.piece_type ≠ PieceKind.pawn) (h : m ∈ pieceMoves pos p sq) :
    m.promotion = none := by
  cases hk : p.piece_type <;> rw [pieceMoves, hk] at h
  case pawn => exact absurd hk hp
  case king =>
    rcases List.mem_append.mp h with h | h
    · obtain ⟨t, _, rfl⟩ := List.mem_map.mp h
      rfl
    · exact (mem_castleMoves pos p.color sq m h).2
  all_goals
    obtain ⟨t, _, rfl⟩ := List.mem_map.mp h
    rfl

theorem mem_pseudoLegalMoves (pos : Position) (m : Move) (h : m ∈ pseudoLegalMoves pos) :
    ∃ p, piece_at pos m.from_square = some p ∧ p.color = pos.turn ∧
      m ∈ pieceMoves pos p m.from_square ∧ m.from_square < 64 := by
  unfold pseudoLegalMoves at h
  rw [List.mem_flatMap] at h
  obtain ⟨sq, hsq, hm⟩ := h
  rw [List.mem_range] at hsq
  rcases hp : piece_at pos sq with _ | p
  · rw [hp] at hm
    simp at hm
  · rw [hp] at hm
    dsimp only at hm
    by_cases hc : p.color = pos.turn
    · rw [if_pos hc] at hm
      have hf := mem_pieceMoves_from pos p sq m hm
      subst hf
      exact ⟨p, hp, hc, hm, hsq⟩
    · rw [if_neg hc] at hm
      simp at hm

theorem pseudoLegalMoves_intro (pos : Position) (m : Move) (p : Piece)
    (hp : piece_at pos m.from_square = some p) (hc : p.color = pos.turn)
    (hlt : m.from_square < 64) (hm : m ∈ pieceMoves pos p m.from_square) :
    m ∈ pseudoLegalMoves pos := by
  unfold pseudoLegalMoves
  rw [List.mem_flatMap]
  refine ⟨m.from_square, List.mem_range.mpr hlt, ?_⟩
  rw [hp]
  dsimp only
  rw [if_pos hc]
  exact hm

theorem mem_legalMoves_iff (pos : Position) (m : Move) :
    m ∈ legalMoves pos ↔ m ∈ pseudoLegalMoves pos ∧ kingSafeAfter pos m = true := by
  unfold legalMoves
  exact List.mem_filter

theorem legal_from_occupied (pos : Position) (m : Move) (h : m ∈ legalMoves pos) :
    ∃ p, piece_at pos m.from_square = some p ∧ p.color = pos.turn := by
  obtain ⟨hps, _⟩ := (mem_legalMoves_iff pos m).mp h
  obtain ⟨p, hp, hc, _, _⟩ := mem_pseudoLegalMoves pos m hps
  exact ⟨p, hp, hc⟩

theorem shift_rank (sq : Nat) (df dr : Int) (t : Nat) (h : shift sq df dr = some t) :
    (rankOf t : Int) = (rankOf sq : Int) + dr := by
  simp only [shift] at h
  split_ifs at h with hc
  · obtain ⟨hf0, hf8, hr0, _⟩ := hc
    have ht : t = ((rankOf sq : Int) + dr).toNat * 8 + ((fileOf sq : Int) + df).toNat :=
      (Option.some_inj.mp h).symm
    have hfile : ((fileOf sq : Int) + df).toNat < 8 := by omega
    have : rankOf t = ((rankOf sq : Int) + dr).toNat := by
      rw [rankOf, ht, Nat.mul_comm, Nat.mul_add_div (by omega), Nat.div_eq_of_lt hfile]
      omega
    omega

theorem mem_pawnForward_shift (pos : Position) (c : Color) (sq t : Nat)
    (h : t ∈ pawnForward pos c sq) :
    shift sq 0 (if c = Color.white then 1 else -1) = some t ∨
      shift sq 0 (2 * if c = Color.white then 1 else -1) = some t := by
  simp only [pawnForward] at h
  rcases hs : shift sq 0 (if c = Color.white then 1 else -1) with _ | t1
  · rw [hs] at h
    simp at h
  · rw [hs] at h
    dsimp only at h
    rcases hs2 : shift sq 0 (2 * if c = Color.white then 1 else -1) with _ | t2 <;>
      rw [hs2] at h <;> split_ifs at h <;> simp at h
    all_goals
      first
        | (rcases h with rfl | ⟨_, rfl⟩
           · exact Or.inl rfl
           · exact Or.inr rfl)
        | (rcases h with rfl | rfl
           · exact Or.inl rfl
           · exact Or.inr rfl)
        | (subst h; exact Or.inl rfl)

theorem mem_pawnCaptures_shift (pos : Position) (c : Color) (sq t : Nat)
    (h : t ∈ pawnCaptures pos c sq) :
    ∃ df, shift sq df (if c = Color.white then 1 else -1) = some t := by
  simp only [pawnCaptures] at h
  rw [List.mem_filterMap] at h
  obtain ⟨df, _, hdf⟩ := h
  rcases hs : shift sq df (if c = Color.white then 1 else -1) with _ | t1
  · rw [hs] at hdf
    simp at hdf
  · rw [hs] at hdf
    dsimp only at hdf
    split_ifs at hdf with hcap
    all_goals
      first
        | (rcases Option.some_inj.mp hdf with rfl; exact ⟨df, hs⟩)
        | simp at hdf

theorem find?_ext {α : Type} (p q : α → Bool) (l : List α) (h : ∀ a, p a = q a) :
    l.find? p = l.find? q := by
  induction l with
  | nil => rfl
  | cons x xs ih =>
      simp only [List.find?]
      rw [h x]
      cases q x <;> simp [ih]

theorem kingSafe_congr (q1 q2 : Position) (c : Color)
    (hocc : occF q1 = occF q2)
    (hck : colorKindAt q1 c.other = colorKindAt q2 c.other)
    (hkg : ∀ s, decide (piece_at q1 s = some ⟨c, PieceKind.king⟩) =
      decide (piece_at q2 s = some ⟨c, PieceKind.king⟩)) :
    kingSafe q1 c = kingSafe q2 c := by
  have hfind : findKing q1 c = findKing q2 c := by
    unfold findKing
    exact find?_ext _ _ _ hkg
  unfold kingSafe
  rw [hfind]
  cases hk : findKing q2 c with
  | none => rfl
  | some ks =>
      unfold isAttacked
      rw [hocc, hck]

theorem kingSafeAfter_promo_congr (pos : Position) (f t : Nat) (p : Piece) (k1 k2 : PieceKind)
    (hp : piece_at pos f = some p) (hc : p.color = pos.turn)
    (hk1 : k1 ≠ PieceKind.king) (hk2 : k2 ≠ PieceKind.king) :
    kingSafeAfter pos ⟨f, t, some k1⟩ = kingSafeAfter pos ⟨f, t, some k2⟩ := by
  have h1 := applyMove_some pos ⟨f, t, some k1⟩ p hp
  have h2 := applyMove_some pos ⟨f, t, some k2⟩ p hp
  have hsq1 : (applyMove pos ⟨f, t, some k1⟩).squares =
      (squaresAfterClear pos p ⟨f, t, some k1⟩).set t (some ⟨p.color, k1⟩) := by
    rw [h1]
    rfl
  have hsq2 : (applyMove pos ⟨f, t, some k2⟩).squares =
      (squaresAfterClear pos p ⟨f, t, some k1⟩).set t (some ⟨p.color, k2⟩) := by
    rw [h2]
    rfl
  have hpa1 : ∀ s, piece_at (applyMove pos ⟨f, t, some k1⟩) s =
      ((squaresAfterClear pos p ⟨f, t, some k1⟩).set t (some ⟨p.color, k1⟩)).getD s none := by
    intro s
    simp only [piece_at]
    rw [hsq1]
  have hpa2 : ∀ s, piece_at (applyMove pos ⟨f, t, some k2⟩) s =
      ((squaresAfterClear pos p ⟨f, t, some k1⟩).set t (some ⟨p.color, k2⟩)).getD s none := by
    intro s
    simp only [piece_at]
    rw [hsq2]
  have hpa : ∀ s, s ≠ t → piece_at (applyMove pos ⟨f, t, some k1⟩) s =
      piece_at (applyMove pos ⟨f, t, some k2⟩) s := by
    intro s hst
    rw [hpa1, hpa2, getD_set_ne _ _ _ _ _ (Ne.symm hst), getD_set_ne _ _ _ _ _ (Ne.symm hst)]
  have hpat : ∃ q1t q2t, piece_at (applyMove pos ⟨f, t, some k1⟩) t = q1t ∧
      piece_at (applyMove pos ⟨f, t, some k2⟩) t = q2t ∧
      ((q1t = some ⟨p.color, k1⟩ ∧ q2t = some ⟨p.color, k2⟩) ∨ q1t = q2t) := by
    by_cases hlen : t < (squaresAfterClear pos p ⟨f, t, some k1⟩).length
    · exact ⟨_, _, by rw [hpa1, getD_set_lt _ _ _ _ hlen],
        by rw [hpa2, getD_set_lt _ _ _ _ hlen], Or.inl ⟨rfl, rfl⟩⟩
    · refine ⟨_, _, by rw [hpa1], by rw [hpa2], Or.inr ?_⟩
      rw [getD_set_ge _ _ _ _ (by omega), getD_set_ge _ _ _ _ (by omega)]
  obtain ⟨q1t, q2t, hq1, hq2, hqor⟩ := hpat
  unfold kingSafeAfter
  apply kingSafe_congr
  · funext s
    unfold occF
    by_cases hst : s = t
    · subst hst
      rw [hq1, hq2]
      rcases hqor with ⟨rfl, rfl⟩ | rfl <;> rfl
    · rw [hpa s hst]
  · funext s
    unfold colorKindAt
    by_cases hst : s = t
    · subst hst
      rw [hq1, hq2]
      rcases hqor with ⟨rfl, rfl⟩ | rfl
      · have hno : ¬(p.color = pos.turn.other) := by
          rw [hc]
          exact fun hx => Color.other_ne pos.turn hx.symm
        dsimp only
        rw [if_neg hno, if_neg hno]
      · rfl
    · rw [hpa s hst]
  · intro s
    by_cases hst : s = t
    · subst hst
      rw [hq1, hq2]
      rcases hqor with ⟨rfl, rfl⟩ | rfl
      · have e1 : ¬(some (⟨p.color, k1⟩ : Piece) = some ⟨pos.turn, PieceKind.king⟩) := by
          intro hx
          exact hk1 (congrArg Piece.piece_type (Option.some_inj.mp hx))
        have e2 : ¬(some (⟨p.color, k2⟩ : Piece) = some ⟨pos.turn, PieceKind.king⟩) := by
          intro hx
          exact hk2 (congrArg Piece.piece_type (Option.some_inj.mp hx))
        rw [decide_eq_false e1, decide_eq_false e2]
      · rfl
    · rw [hpa s hst]

theorem legalMoves_promo_sibling (pos : Position) (f t : Nat) (k1 k2 : PieceKind)
    (h : (⟨f, t, some k1⟩ : Move) ∈ legalMoves pos) (hk2 : k2 ∈ promoKinds) :
    (⟨f, t, some k2⟩ : Move) ∈ legalMoves pos := by
  obtain ⟨hps, hsafe⟩ := (mem_legalMoves_iff pos _).mp h
  obtain ⟨p, hp, hc, hm, hlt⟩ := mem_pseudoLegalMoves pos _ hps
  have hpt : p.piece_type = PieceKind.pawn := by
    by_contra hnp
    have := mem_pieceMoves_nonpawn pos p _ _ hnp hm
    simp at this
  simp only [pieceMoves, hpt] at hm
  have hk1 : k1 ∈ promoKinds := by
    obtain ⟨_, _, hdisj⟩ := mem_pawnMoves pos p.color _ _ hm
    rcases hdisj with ⟨hnone, _⟩ | ⟨⟨k, hk, hkeq⟩, _⟩
    · simp at hnone
    · rcases Option.some_inj.mp hkeq.symm with rfl
      exact hk
  have hm2 := pawnMoves_sibling pos p.color f t k1 k2 hm hk2
  apply (mem_legalMoves_iff pos _).mpr
  have hkk1 : k1 ≠ PieceKind.king := by
    intro hx
    subst hx
    simp [promoKinds] at hk1
  have hkk2 : k2 ≠ PieceKind.king := by
    intro hx
    subst hx
    simp [promoKinds] at hk2
  constructor
  · apply pseudoLegalMoves_intro pos ⟨f, t, some k2⟩ p hp hc hlt
    simp only [pieceMoves, hpt]
    exact hm2
  · rw [← kingSafeAfter_promo_congr pos f t p k1 k2 hp hc hkk1 hkk2]
    exact hsafe

theorem mem_pawnTargets_rank (pos : Position) (c : Color) (sq t : Nat)
    (hsq : sq < 64) (h : t ∈ pawnTargets pos c sq) :
    (c = Color.white → 1 ≤ rankOf t) ∧ (c = Color.black → rankOf t ≤ 6) := by
  have hrk : rankOf sq ≤ 7 := by
    rw [rankOf]
    omega
  have key : ∃ dr : Int, (dr = (if c = Color.white then 1 else -1) ∨
      dr = 2 * (if c = Color.white then 1 else -1)) ∧
      (rankOf t : Int) = (rankOf sq : Int) + dr := by
    rcases List.mem_append.mp h with h | h
    · rcases mem_pawnForward_shift pos c sq t h with hs | hs
      · exact ⟨_, Or.inl rfl, shift_rank _ _ _ _ hs⟩
      · exact ⟨_, Or.inr rfl, shift_rank _ _ _ _ hs⟩
    · obtain ⟨df, hs⟩ := mem_pawnCaptures_shift pos c sq t h
      exact ⟨_, Or.inl rfl, shift_rank _ _ _ _ hs⟩
  obtain ⟨dr, hdr, heq⟩ := key
  constructor
  · intro hc
    rw [hc] at hdr
    simp at hdr
    omega
  · intro hc
    rw [hc] at hdr
    simp at hdr
    omega

theorem legal_pawn_promo_iff (pos : Position) (m : Move) (p : Piece)
    (h : m ∈ legalMoves pos) (hp : piece_at pos m.from_square = some p)
    (hpt : p.piece_type = PieceKind.pawn) :
    ((m.promotion ≠ none ↔ rankOf m.to_square = terminalRank p.color)
      ∧ ∀ k, m.promotion = some k → k ∈ promoKinds) := by
  obtain ⟨hps, _⟩ := (mem_legalMoves_iff pos m).mp h
  obtain ⟨p', hp', hc, hm, hlt⟩ := mem_pseudoLegalMoves pos m hps
  have hpp : p' = p := by
    rw [hp] at hp'
    exact (Option.some_inj.mp hp').symm
  rw [hpp] at hm hc
  simp only [pieceMoves, hpt] at hm
  obtain ⟨hf, hto, hdisj⟩ := mem_pawnMoves pos p.color _ _ hm
  have hrank := mem_pawnTargets_rank pos p.color m.from_square m.to_square hlt hto
  constructor
  · rcases hcol : p.color with _ | _
    · rw [hcol] at hrank
      have hge : 1 ≤ rankOf m.to_square := hrank.1 rfl
      simp only [terminalRank]
      constructor
      · intro hne
        rcases hdisj with ⟨hnone, _⟩ | ⟨_, h7 | h0⟩
        · exact absurd hnone hne
        · exact h7
        · omega
      · intro h7
        rcases hdisj with ⟨_, hnor⟩ | ⟨⟨k, _, hkeq⟩, _⟩
        · exact absurd (Or.inl h7) hnor
        · rw [hkeq]
          simp
    · rw [hcol] at hrank
      have hle : rankOf m.to_square ≤ 6 := hrank.2 rfl
      simp only [terminalRank]
      constructor
      · intro hne
        rcases hdisj with ⟨hnone, _⟩ | ⟨_, h7 | h0⟩
        · exact absurd hnone hne
        · omega
        · exact h0
      · intro h0
        rcases hdisj with ⟨_, hnor⟩ | ⟨⟨k, _, hkeq⟩, _⟩
        · exact absurd (Or.inr h0) hnor
        · rw [hkeq]
          simp
  · intro k hk
    rcases hdisj with ⟨hnone, _⟩ | ⟨⟨k0, hk0, hkeq⟩, _⟩
    · rw [hnone] at hk
      cases hk
    · rw [hkeq] at hk
      rcases Option.some_inj.mp hk with rfl
      exact hk0

/-- C1: on a cache miss with the engine available, `compute_winrate`
normalizes a forced-mate score to 1 when the mate count is positive and
to 0 otherwise, and a centipawn score cp to (cp + 300) / 600 clamped to
[0, 1]; in particular cp = 0 gives 0.5, cp = 300 gives 1, cp = -300
gives 0, and cp = 600 clamps to 1. -/
theorem winrate_normalization (f : Fen) (cf : Option Fen) (cw : Rat) (h : cf ≠ some f) :
    (∀ n : Int, (compute_winrate true (.ok (some (.mateIn n))) f cf cw).value =
      if 0 < n then 1 else 0)
    ∧ (∀ cp : Int, (compute_winrate true (.ok (some (.centipawns cp))) f cf cw).value =
      max (min (((cp : Rat) + 300) / 600) 1) 0)
    ∧ (compute_winrate true (.ok (some (.centipawns 0))) f cf cw).value = 1/2
    ∧ (compute_winrate true (.ok (some (.centipawns 300))) f cf cw).value = 1
    ∧ (compute_winrate true (.ok (some (.centipawns (-300)))) f cf cw).value = 0
    ∧ (compute_winrate true (.ok (some (.centipawns 600))) f cf cw).value = 1 := by
  refine ⟨?_, ?_, ?_, ?_, ?_, ?_⟩ <;> simp [compute_winrate, h, scoreToWinrate] <;> norm_num

theorem winrate_normalization_witness :
    (compute_winrate true (.ok (some (.centipawns 0))) (fen startPos) none (1/2)).value = 1/2 :=
  (winrate_normalization (fen startPos) none (1/2) (by decide)).2.2.1

/-- C5: when the stored Position Identifier matches the current one,
`compute_winrate` returns the cached value, leaves the cache unchanged
and issues no external request; and for any two consecutive calls on the
same position, the second returns the identical value with no external
request. -/
theorem evaluate_idempotent (e : Bool) (a1 a2 : AnalyseResult) (f : Fen) (cf : Option Fen)
    (cw : Rat) :
    (cf = some f → compute_winrate true a1 f cf cw = ⟨cw, cf, cw, 0⟩)
    ∧ ((compute_winrate e a2 f (compute_winrate e a1 f cf cw).cache_fen
          (compute_winrate e a1 f cf cw).cache_winrate).value =
        (compute_winrate e a1 f cf cw).value
      ∧ (compute_winrate e a2 f (compute_winrate e a1 f cf cw).cache_fen
          (compute_winrate e a1 f cf cw).cache_winrate).engine_calls = 0) := by
  constructor
  · intro hhit
    simp [compute_winrate, hhit]
  · cases e
    · simp [compute_winrate]
    · by_cases hhit : cf = some f
      · simp [compute_winrate, hhit]
      · cases a1 with
        | error u => simp [compute_winrate, hhit]
        | ok s => simp [compute_winrate, hhit]

theorem evaluate_idempotent_witness :
    compute_winrate true (.ok none) (fen startPos) (some (fen startPos)) (3/4) =
      ⟨3/4, some (fen startPos), 3/4, 0⟩ :=
  (evaluate_idempotent true (.ok none) (.ok none) (fen startPos) (some (fen startPos)) (3/4)).1 rfl

/-- C6: when the engine is absent, or the analyse call raises, or the
returned info has no score, `compute_winrate` returns the neutral 0.5
(totally, without raising) and records the current Position Identifier
as last evaluated, so a repeated call on the same position issues no
further external request. -/
theorem evaluate_failure_policy (a a2 : AnalyseResult) (f : Fen) (cf : Option Fen) (cw : Rat) :
    (compute_winrate false a f cf cw = ⟨1/2, some f, 1/2, 0⟩)
    ∧ (cf ≠ some f → compute_winrate true (.error ()) f cf cw = ⟨1/2, some f, 1/2, 1⟩)
    ∧ (cf ≠ some f → compute_winrate true (.ok none) f cf cw = ⟨1/2, some f, 1/2, 1⟩)
    ∧ (compute_winrate true a2 f (compute_winrate true (.error ()) f cf cw).cache_fen
        (compute_winrate true (.error ()) f cf cw).cache_winrate).engine_calls = 0 := by
  refine ⟨by simp [compute_winrate], fun h => by simp [compute_winrate, h, scoreToWinrate],
    fun h => by simp [compute_winrate, h, scoreToWinrate], ?_⟩
  by_cases hhit : cf = some f
  · simp [compute_winrate, hhit]
  · simp [compute_winrate, hhit]

theorem evaluate_failure_policy_witness :
    compute_winrate true (.error ()) (fen startPos) none (1/2) =
      ⟨1/2, some (fen startPos), 1/2, 1⟩ :=
  (evaluate_failure_policy (.ok none) (.ok none) (fen startPos) none (1/2)).2.1 (by decide)

/-- C10: whatever path a `compute_winrate` call takes (engine absent,
cache hit, successful analysis, missing score or raised exception),
afterwards the stored Position Identifier equals the FEN of the current
board, the returned value equals the stored cached probability, and that
value lies in [0, 1] — assuming the incoming cached value did. -/
theorem evaluate_cache_coherence (e : Bool) (a : AnalyseResult) (b : Board) (cf : Option Fen)
    (cw : Rat) (h0 : 0 ≤ cw) (h1 : cw ≤ 1) :
    (compute_winrate e a (fen b.pos) cf cw).cache_fen = some (fen b.pos)
    ∧ (compute_winrate e a (fen b.pos) cf cw).value =
      (compute_winrate e a (fen b.pos) cf cw).cache_winrate
    ∧ 0 ≤ (compute_winrate e a (fen b.pos) cf cw).value
    ∧ (compute_winrate e a (fen b.pos) cf cw).value ≤ 1 := by
  cases e
  · refine ⟨by simp [compute_winrate], by simp [compute_winrate], ?_, ?_⟩ <;>
      simp [compute_winrate] <;> norm_num
  · by_cases hhit : cf = some (fen b.pos)
    · simp [compute_winrate, hhit, h0, h1]
    · have hval : ∀ s : Option RelScore, 0 ≤ scoreToWinrate s ∧ scoreToWinrate s ≤ 1 := by
        intro s
        rcases s with _ | rel
        · constructor <;> norm_num [scoreToWinrate]
        · rcases rel with n | cp
          · simp only [scoreToWinrate]
            split_ifs <;> norm_num
          · simp only [scoreToWinrate]
            constructor
            · exact le_max_right _ _
            · exact max_le (min_le_right _ _) (by norm_num)
      cases a with
      | error u =>
          refine ⟨by simp [compute_winrate, hhit], by simp [compute_winrate, hhit], ?_, ?_⟩ <;>
            simp [compute_winrate, hhit] <;> norm_num
      | ok s =>
          refine ⟨by simp [compute_winrate, hhit], by simp [compute_winrate, hhit], ?_, ?_⟩ <;>
            simp [compute_winrate, hhit]
          · exact (hval s).1
          · exact (hval s).2

theorem evaluate_cache_coherence_witness :
    (compute_winrate true (.ok (some (.centipawns 100))) (fen startBoard.pos) none
      (0 : Rat)).cache_fen = some (fen startBoard.pos) :=
  (evaluate_cache_coherence true (.ok (some (.centipawns 100))) startBoard none 0
    (le_refl 0) zero_le_one).1

/-- C2: `try_make_move` succeeds exactly when the move it constructs from
the click pair (with the prompted promotion choice) is in the legal-move
set; on failure the whole state — board, turn, history — is unchanged; on
success the board is pushed, the turn alternates and the move is appended
to the history; and when the origin square is empty no legal move from
that origin exists at all. -/
theorem try_make_move_spec (s : GameState) (choice : PromChoice) (f t : Nat) :
    ((try_make_move s choice f t).1 = true ↔
      ∃ m, attempted_move s.board.pos choice f t = some m ∧ m ∈ legalMoves s.board.pos)
    ∧ ((try_make_move s choice f t).1 = false → (try_make_move s choice f t).2 = s)
    ∧ (∀ m, attempted_move s.board.pos choice f t = some m → m ∈ legalMoves s.board.pos →
        (try_make_move s choice f t).2.board = s.board.push m
        ∧ (try_make_move s choice f t).2.board.pos.turn = s.board.pos.turn.other
        ∧ (try_make_move s choice f t).2.move_stack = s.move_stack ++ [m]
        ∧ (try_make_move s choice f t).2.selected_square = s.selected_square
        ∧ (try_make_move s choice f t).2.last_eval_fen = s.last_eval_fen)
    ∧ (attempted_move s.board.pos choice f t = none →
        ∀ m ∈ legalMoves s.board.pos, m.from_square ≠ f) := by
  rcases ha : attempted_move s.board.pos choice f t with _ | m
  · have hempty : piece_at s.board.pos f = none := by
      unfold attempted_move at ha
      rcases hpa : piece_at s.board.pos f with _ | p
      · rfl
      · rw [hpa] at ha
        dsimp only at ha
        split_ifs at ha <;> cases ha
    refine ⟨?_, ?_, ?_, ?_⟩
    · unfold try_make_move
      rw [ha]
      simp
    · intro _
      unfold try_make_move
      rw [ha]
    · intro m hm
      cases hm
    · intro _ m hm hf
      obtain ⟨p, hp, _⟩ := legal_from_occupied s.board.pos m hm
      rw [hf, hempty] at hp
      cases hp
  · have hres : try_make_move s choice f t =
        if m ∈ legalMoves s.board.pos then
          (true, { s with board := s.board.push m, move_stack := s.move_stack ++ [m] })
        else (false, s) := by
      unfold try_make_move
      rw [ha]
    by_cases hl : m ∈ legalMoves s.board.pos
    · rw [if_pos hl] at hres
      refine ⟨?_, ?_, ?_, ?_⟩
      · rw [hres]
        exact ⟨fun _ => ⟨m, rfl, hl⟩, fun _ => rfl⟩
      · rw [hres]
        intro hx
        cases hx
      · intro m' hm' hl'
        rcases Option.some_inj.mp hm' with rfl
        rw [hres]
        exact ⟨rfl, applyMove_turn s.board.pos _, rfl, rfl, rfl⟩
      · intro hx
        cases hx
    · rw [if_neg hl] at hres
      refine ⟨?_, ?_, ?_, ?_⟩
      · rw [hres]
        constructor
        · intro hx
          cases hx
        · rintro ⟨m', hm', hl'⟩
          rcases Option.some_inj.mp hm' with rfl
          exact absurd hl' hl
      · intro _
        rw [hres]
      · intro m' hm' hl'
        rcases Option.some_inj.mp hm' with rfl
        exact absurd hl' hl
      · intro hx
        cases hx

theorem try_make_move_spec_witness :
    (try_make_move startState .q 12 28).2.move_stack = [e2e4]
    ∧ (try_make_move startState .q 12 28).2.board.pos.turn = Color.black := by
  have h := (try_make_move_spec startState .q 12 28).2.2.1 e2e4 (by decide) (by decide)
  refine ⟨h.2.2.1, ?_⟩
  rw [h.2.1]
  rfl

/-- C3: pushing any legal move and then popping restores a board whose
Position Identifier — indeed whose entire state, captured pieces and
special-move side effects included — is identical to the pre-push one. -/
theorem push_pop_roundtrip (b : Board) (m : Move) (h : m ∈ legalMoves b.pos) :
    fen ((b.push m).popB).pos = fen b.pos ∧ (b.push m).popB = b := by
  have hb : (b.push m).popB = b := rfl
  exact ⟨by rw [hb], hb⟩

theorem push_pop_roundtrip_witness :
    fen ((startBoard.push e2e4).popB).pos = fen startBoard.pos :=
  (push_pop_roundtrip startBoard e2e4 (by decide)).1

/-- C4: an undo request with an empty Move History is a guarded no-op —
the board, turn, history, selection and evaluation cache are all exactly
as before. -/
theorem undo_empty_noop (s : GameState) (h : s.move_stack = []) : undo_handler s = s := by
  unfold undo_handler
  rw [if_pos h]

theorem undo_empty_noop_witness : undo_handler startState = startState :=
  undo_empty_noop startState rfl

/-- C7 counterexample: an undo request on a state with a non-empty
history and an active selection leaves the selected square set — the
`K_u` handler never clears the Selection State, contradicting the claim
that every undo request clears it. -/
theorem undo_keeps_selection_cex :
    undoCexState.move_stack ≠ [] ∧ (undo_handler undoCexState).selected_square = some 28 :=
  ⟨by decide, by decide⟩

/-- C7 amended: on an undo request with a non-empty Move History the
handler pops the board and the history and invalidates the evaluation
cache, but leaves the Selection State untouched; with an empty history
the request is a complete no-op (the cache is not invalidated either). -/
theorem undo_handler_spec (s : GameState) :
    (s.move_stack ≠ [] → undo_handler s =
      { s with
          board := s.board.popB
          move_stack := s.move_stack.dropLast
          last_eval_fen := none })
    ∧ (s.move_stack ≠ [] → (undo_handler s).selected_square = s.selected_square
        ∧ (undo_handler s).legal_moves = s.legal_moves)
    ∧ (s.move_stack = [] → undo_handler s = s) := by
  refine ⟨fun h => ?_, fun h => ?_, fun h => ?_⟩ <;> unfold undo_handler
  · rw [if_neg h]
  · rw [if_neg h]
    exact ⟨rfl, rfl⟩
  · rw [if_pos h]

theorem undo_handler_spec_witness :
    (undo_handler undoCexState).last_eval_fen = none
    ∧ (undo_handler undoCexState).selected_square = undoCexState.selected_square := by
  have h := undo_handler_spec undoCexState
  exact ⟨by rw [h.1 (by decide)], (h.2.1 (by decide)).1⟩

/-- C8 counterexample: clicking e2 (square 12) in the starting position
selects it, but the stored move list contains the knight move b1-a3,
whose origin is not the selected square — the handler stores the full
legal-move list, not the origin-filtered set the claim describes. -/
theorem idle_click_unfiltered_cex :
    (mouse_handler startState .q 12).selected_square = some 12
    ∧ (⟨1, 16, none⟩ : Move) ∈ (mouse_handler startState .q 12).legal_moves
    ∧ (⟨1, 16, none⟩ : Move).from_square ≠ 12 :=
  ⟨by decide, by decide, by decide⟩

/-- C8 amended: on a square click in the Idle state the controller enters
Selected exactly when a side-to-move piece occupies the square, storing
that square together with the full legal-move list of the position (the
origin filter is applied only at render time); on any other click it
remains Idle with no state change. -/
theorem idle_click_spec (s : GameState) (choice : PromChoice) (sq : Nat)
    (hsel : s.selected_square = none) :
    (∀ p, piece_at s.board.pos sq = some p → p.color = s.board.pos.turn →
      mouse_handler s choice sq =
        { s with
            selected_square := some sq
            legal_moves := legalMoves s.board.pos })
    ∧ (∀ p, piece_at s.board.pos sq = some p → p.color ≠ s.board.pos.turn →
      mouse_handler s choice sq = s)
    ∧ (piece_at s.board.pos sq = none → mouse_handler s choice sq = s) := by
  refine ⟨fun p hp hc => ?_, fun p hp hc => ?_, fun hp => ?_⟩ <;>
    unfold mouse_handler <;> rw [hsel] <;> dsimp only <;> rw [hp] <;> dsimp only
  · rw [if_pos hc]
  · rw [if_neg hc]

theorem idle_click_spec_witness :
    mouse_handler startState .q 12 =
      { startState with
          selected_square := some 12
          legal_moves := legalMoves startState.board.pos } :=
  (idle_click_spec startState .q 12 rfl).1 ⟨Color.white, PieceKind.pawn⟩ (by decide) (by decide)

/-- C9: for every legal pawn move, a promotion is carried exactly when the
destination is the terminal rank for the pawn's colour, and any carried
promotion kind is one of queen, rook, bishop or knight; whenever one
promotion choice is legal the other three choices of the same pawn move
are legal too; and concretely, the legal White push a7-a8 with choice
queen places a queen on the destination square, all four choices being
legal. -/
theorem promotion_spec :
    (∀ pos m p, m ∈ legalMoves pos → piece_at pos m.from_square = some p →
      p.piece_type = PieceKind.pawn →
      ((m.promotion ≠ none ↔ rankOf m.to_square = terminalRank p.color)
        ∧ ∀ k, m.promotion = some k → k ∈ promoKinds))
    ∧ (∀ pos f t k1 k2, (⟨f, t, some k1⟩ : Move) ∈ legalMoves pos → k2 ∈ promoKinds →
        (⟨f, t, some k2⟩ : Move) ∈ legalMoves pos)
    ∧ (a7a8Q ∈ legalMoves promoPos
      ∧ piece_at (applyMove promoPos a7a8Q) 56 = some ⟨Color.white, PieceKind.queen⟩
      ∧ ∀ k ∈ promoKinds, (⟨48, 56, some k⟩ : Move) ∈ legalMoves promoPos) :=
  ⟨fun pos m p hm hp hpt => legal_pawn_promo_iff pos m p hm hp hpt,
    fun pos f t k1 k2 h hk2 => legalMoves_promo_sibling pos f t k1 k2 h hk2,
    by decide, by decide, by decide⟩

theorem promotion_spec_witness :
    (⟨48, 56, some PieceKind.rook⟩ : Move) ∈ legalMoves promoPos :=
  promotion_spec.2.1 promoPos 48 56 PieceKind.queen PieceKind.rook (by decide) (by decide)

end Chess
